import Mathlib

/-!
Verification of the flight-route planning core (`app.py`).

The data model and operations are shallowly embedded: the flight table
rows, `_build_graph`, `preprocess_combined_weights` and `score_path` are
translated directly from the source.  The shortest-path searches and the
alternative-path enumeration are delegated by the source to library
routines (`nx.dijkstra_path`, `nx.bellman_ford_path`,
`nx.shortest_simple_paths`) whose code is not part of this repository;
those are modelled from the specification, as noted on each definition.
Numbers are embedded as `Int` (exact arithmetic).
-/

namespace FlightRoute

/-- One row of the flight table (`flights.csv`), as consumed by
`_build_graph`: origin, destination, three cost attributes and four
coordinates. -/
structure Row where
  source : String
  dest : String
  cost : Int
  time_minutes : Int
  co2_kg : Int
  source_lat : Int
  source_lon : Int
  dest_lat : Int
  dest_lon : Int
deriving DecidableEq

/-- The attribute bundle stored on one directed edge by `_build_graph`
(`cost`, `time`, `co2`, coordinates) together with the `combined_score`
attribute, which is absent (`none`) until `preprocess_combined_weights`
sets it. -/
structure EdgeData where
  cost : Int
  time : Int
  co2 : Int
  source_lat : Int
  source_lon : Int
  dest_lat : Int
  dest_lon : Int
  combined_score : Option Int
deriving DecidableEq

/-- A directed edge of the graph: ordered pair of airport codes plus the
attribute bundle. -/
structure GEdge where
  u : String
  v : String
  data : EdgeData
deriving DecidableEq

/-- The directed graph, as the list of its edges.  Graphs built by
`build_graph` hold at most one edge per ordered pair, mirroring
`nx.DiGraph`. -/
abbrev Graph := List GEdge

/-- The preference weight vector, in the tuple order used by the source:
`cost_w, time_w, layover_w, co2_w = weights`. -/
structure Weights where
  cost_w : Int
  time_w : Int
  layover_w : Int
  co2_w : Int
deriving DecidableEq

/-- The tuple returned by `score_path`:
`(score, total_cost, total_time, total_co2, len(path) - 2)`. -/
structure PathScore where
  combined : Int
  total_cost : Int
  total_time : Int
  total_co2 : Int
  layovers : Int
deriving DecidableEq

/-- The edge-attribute bundle a row contributes via `add_edge`
(`cost=row['cost'], time=row['time_minutes'], co2=row['co2_kg']`, plus
coordinates); `combined_score` is not yet present. -/
def rowData (r : Row) : EdgeData :=
  { cost := r.cost, time := r.time_minutes, co2 := r.co2_kg,
    source_lat := r.source_lat, source_lon := r.source_lon,
    dest_lat := r.dest_lat, dest_lon := r.dest_lon,
    combined_score := none }

/-- Attribute lookup for the ordered pair `(a, b)`, mirroring
`self.graph[a][b]`. -/
def lookupEdge : Graph → String → String → Option EdgeData
  | [], _, _ => none
  | e :: rest, a, b =>
    if e.u = a ∧ e.v = b then some e.data else lookupEdge rest a b

/-- Removing every edge for the ordered pair `(a, b)`; used to express
`nx.DiGraph.add_edge`'s overwrite of an existing edge. -/
def removeEdge : Graph → String → String → Graph
  | [], _, _ => []
  | e :: rest, a, b =>
    if e.u = a ∧ e.v = b then removeEdge rest a b
    else e :: removeEdge rest a b

/-- `self.graph.add_edge(a, b, ...)`: at most one attribute bundle per
ordered pair, the newest write replacing any previous one. -/
def addEdge (g : Graph) (a b : String) (d : EdgeData) : Graph :=
  removeEdge g a b ++ [⟨a, b, d⟩]

/-- `_build_graph`: fold the rows of the table into the directed graph,
one `add_edge` per row, in table order. -/
def build_graph (rows : List Row) : Graph :=
  rows.foldl (fun g r => addEdge g r.source r.dest (rowData r)) []

/-- The node list of the graph (`nx.DiGraph` nodes are exactly the edge
endpoints, since the graph is populated solely through `add_edge`). -/
def nodesList (g : Graph) : List String :=
  (g.map (fun e => e.u) ++ g.map (fun e => e.v)).dedup

/-- Node membership in the graph. -/
abbrev hasNode (g : Graph) (x : String) : Prop := x ∈ nodesList g

/-- The combined weight `preprocess_combined_weights` stores on an edge
with raw data `d`:
`cost_w * cost + time_w * time + co2_w * co2 + layover_w * 1`. -/
def setW (w : Weights) (d : EdgeData) : EdgeData :=
  { d with combined_score := some (w.cost_w * d.cost + w.time_w * d.time + w.co2_w * d.co2 + w.layover_w * 1) }

/-- `preprocess_combined_weights`: store the combined scalar weight on
every edge of the graph, leaving all other attributes alone. -/
def preprocess_combined_weights (g : Graph) (w : Weights) : Graph :=
  g.map (fun e => { e with data := setW w e.data })

/-- The loop body of `score_path`: sum the raw `cost`, `time` and `co2`
attributes over consecutive pairs of the path.  A missing edge makes the
lookup fail (`KeyError` in the source), hence `none`. -/
def sumEdges (g : Graph) : List String → Option (Int × Int × Int)
  | [] => some (0, 0, 0)
  | [_] => some (0, 0, 0)
  | a :: b :: rest =>
    match lookupEdge g a b, sumEdges g (b :: rest) with
    | some d, some (c, t, z) => some (d.cost + c, d.time + t, d.co2 + z)
    | _, _ => none

/-- `score_path(path, weights)`: total raw attributes along the path and
the combined score
`total_cost*cost_w + total_time*time_w + total_co2*co2_w + (len(path)-2)*layover_w`,
returned with the layover count `len(path) - 2`. -/
def score_path (g : Graph) (w : Weights) (path : List String) :
    Option PathScore :=
  match sumEdges g path with
  | none => none
  | some (c, t, z) =>
    some { combined := (c * w.cost_w + t * w.time_w + z * w.co2_w + ((path.length : Int) - 2) * w.layover_w),
           total_cost := c, total_time := t, total_co2 := z,
           layovers := ((path.length : Int) - 2) }

/-- The `combined_score` attribute used as the search weight; the
default `1` mirrors the library's fallback for an absent weight key and
is never reached after `preprocess_combined_weights` has run. -/
def combinedOf (g : Graph) (a b : String) : Int :=
  match lookupEdge g a b with
  | some d => d.combined_score.getD 1
  | none => 1

/-- Total combined weight of a path, the objective minimized by both
searches and by the enumerator. -/
def pathWeight (g : Graph) : List String → Int
  | [] => 0
  | [_] => 0
  | a :: b :: rest => combinedOf g a b + pathWeight g (b :: rest)

/-- Successor nodes of `a` (the keys of `self.graph[a]`). -/
def successors : Graph → String → List String
  | [], _ => []
  | e :: rest, a =>
    if e.u = a then e.v :: successors rest a else successors rest a

/-- Modelled from the spec: the simple-path space both searches and the
Alternative Path Enumerator range over (the library code for
`nx.dijkstra_path`, `nx.bellman_ford_path` and
`nx.shortest_simple_paths` is not part of this repository).  Depth-first
collection of every simple path from `u` to `t` avoiding `visited`,
with enough fuel to cover any loop-free path. -/
def spAux (g : Graph) (t : String) : Nat → String → List String → List (List String)
  | 0, u, _ => if u = t then [[u]] else []
  | n + 1, u, visited =>
    if u = t then [[u]]
    else
      ((successors g u).filter (fun v => decide (v ∉ visited))).flatMap
        (fun v => (spAux g t n v (v :: visited)).map (fun p => u :: p))

/-- Modelled from the spec: all simple paths from `s` to `t` in `g`. -/
def allSimplePaths (g : Graph) (s t : String) : List (List String) :=
  spAux g t (nodesList g).length s [s]

/-- The error kinds of §7 of the specification that the search layer can
surface: `UnknownAirport`, `NoPathFound`, `DisconnectedPath`. -/
inductive SearchError where
  | unknownAirport
  | noPathFound
  | disconnectedPath
deriving DecidableEq

/-- First minimizer of `key` over `p :: rest` (a later candidate replaces
the current one only when strictly smaller). -/
def pickFirstMin (key : List String → Int) (p : List String) :
    List (List String) → List String
  | [] => p
  | q :: qs =>
    if key q < key p then pickFirstMin key q qs else pickFirstMin key p qs

/-- Last minimizer of `key` over `p :: rest` (a later candidate replaces
the current one when less than or equal). -/
def pickLastMin (key : List String → Int) (p : List String) :
    List (List String) → List String
  | [] => p
  | q :: qs =>
    if key q ≤ key p then pickLastMin key q qs else pickLastMin key p qs

/-- Modelled from the spec: `nx.dijkstra_path(graph, src, dst,
weight='combined_score')` — a minimum-combined-weight simple path, with
`UnknownAirport` when an endpoint is absent and `NoPathFound` when the
destination is unreachable; the tie-break (first minimizer found) is one
deterministic implementation-defined choice. -/
def dijkstra_path (g : Graph) (s t : String) :
    Except SearchError (List String) :=
  if hasNode g s ∧ hasNode g t then
    match allSimplePaths g s t with
    | [] => .error .noPathFound
    | p :: ps => .ok (pickFirstMin (pathWeight g) p ps)
  else .error .unknownAirport

/-- Modelled from the spec: `nx.bellman_ford_path(graph, src, dst,
weight='combined_score')` — functionally equivalent to the Dijkstra-style
search on this weight range, differing only in its implementation-defined
tie-break (last minimizer found). -/
def bellman_ford_path (g : Graph) (s t : String) :
    Except SearchError (List String) :=
  if hasNode g s ∧ hasNode g t then
    match allSimplePaths g s t with
    | [] => .error .noPathFound
    | p :: ps => .ok (pickLastMin (pathWeight g) p ps)
  else .error .unknownAirport

/-- `get_dijkstra_path`: run the search, then annotate the returned path
with `score_path` under the current weight vector. -/
def get_dijkstra_path (g : Graph) (w : Weights) (s t : String) :
    Except SearchError (List String × PathScore) :=
  match dijkstra_path g s t with
  | .error e => .error e
  | .ok p =>
    match score_path g w p with
    | some sc => .ok (p, sc)
    | none => .error .disconnectedPath

/-- `get_bellman_ford_path`: as `get_dijkstra_path`, over the
label-correcting search. -/
def get_bellman_ford_path (g : Graph) (w : Weights) (s t : String) :
    Except SearchError (List String × PathScore) :=
  match bellman_ford_path g s t with
  | .error e => .error e
  | .ok p =>
    match score_path g w p with
    | some sc => .ok (p, sc)
    | none => .error .disconnectedPath

/-- Ordered insertion by total combined weight. -/
def insertByW (g : Graph) (p : List String) :
    List (List String) → List (List String)
  | [] => [p]
  | q :: qs =>
    if pathWeight g p ≤ pathWeight g q then p :: q :: qs
    else q :: insertByW g p qs

/-- Sorting a list of paths by total combined weight. -/
def sortByW (g : Graph) : List (List String) → List (List String)
  | [] => []
  | p :: ps => insertByW g p (sortByW g ps)

/-- Modelled from the spec: `nx.shortest_simple_paths(graph, src, dst,
weight='combined_score')` — the simple paths from `s` to `t`, each
emitted once, in non-decreasing order of total combined weight; an
unreachable destination yields the empty enumeration. -/
def shortest_simple_paths (g : Graph) (s t : String) :
    List (List String) :=
  sortByW g (allSimplePaths g s t).dedup

/-- All edges of the path exist in the graph (consecutive lookups
succeed). -/
def chainOk (g : Graph) (p : List String) : Prop :=
  List.Chain' (fun a b => ∃ d, lookupEdge g a b = some d) p

/-- Every edge carries the combined weight prescribed by the weight
vector `w` (the state `preprocess_combined_weights` establishes). -/
def WellWeighted (w : Weights) (g : Graph) : Prop :=
  ∀ a b d, lookupEdge g a b = some d →
    d.combined_score =
      some (w.cost_w * d.cost + w.time_w * d.time + w.co2_w * d.co2 +
            w.layover_w * 1)

/-- All raw edge attributes of the graph are non-negative. -/
abbrev nonnegGraph (g : Graph) : Prop :=
  ∀ e ∈ g, 0 ≤ e.data.cost ∧ 0 ≤ e.data.time ∧ 0 ≤ e.data.co2

/-- All four weight components are positive. -/
abbrev posWeights (w : Weights) : Prop :=
  0 < w.cost_w ∧ 0 < w.time_w ∧ 0 < w.layover_w ∧ 0 < w.co2_w

/-- The scenario graph of §8 of the specification:
A→B(100,60,50), B→C(50,30,20), A→C(200,50,80). -/
def gScenario : Graph :=
  build_graph
    [⟨"A", "B", 100, 60, 50, 0, 0, 0, 0⟩,
     ⟨"B", "C", 50, 30, 20, 0, 0, 0, 0⟩,
     ⟨"A", "C", 200, 50, 80, 0, 0, 0, 0⟩]

/-- The all-ones weight vector of the scenario. -/
def wOnes : Weights := ⟨1, 1, 1, 1⟩

/-- A one-edge graph A→B used as a concrete witness input. -/
def gOne : Graph := build_graph [⟨"A", "B", 7, 5, 3, 0, 0, 0, 0⟩]

/-- A row with a negative cost, used to exhibit the absence of load-time
validation. -/
def rowNeg : Row := ⟨"A", "B", -1, 5, 5, 0, 0, 0, 0⟩

/-- The rightmost row of the table matching the ordered pair `(a, b)` —
the row whose attributes survive last-write-wins loading. -/
def lastMatch (a b : String) : List Row → Option Row
  | [] => none
  | r :: rest =>
    match lastMatch a b rest with
    | some r2 => some r2
    | none => if r.source = a ∧ r.dest = b then some r else none

theorem lookupEdge_nil (a b : String) : lookupEdge [] a b = none := rfl

theorem lookupEdge_cons (e : GEdge) (g : Graph) (a b : String) :
    lookupEdge (e :: g) a b =
      if e.u = a ∧ e.v = b then some e.data else lookupEdge g a b := rfl

theorem lookupEdge_append (g h : Graph) (a b : String) :
    lookupEdge (g ++ h) a b =
      match lookupEdge g a b with
      | some d => some d
      | none => lookupEdge h a b := by
  induction g with
  | nil => simp [lookupEdge]
  | cons e rest ih =>
    rw [List.cons_append, lookupEdge_cons, lookupEdge_cons]
    split
    · rfl
    · exact ih

theorem lookup_removeEdge (g : Graph) (a b x y : String) :
    lookupEdge (removeEdge g a b) x y =
      if a = x ∧ b = y then none else lookupEdge g x y := by
  induction g with
  | nil => simp [removeEdge, lookupEdge]
  | cons e rest ih =>
    rw [removeEdge]
    by_cases hab : e.u = a ∧ e.v = b
    · rw [if_pos hab, ih]
      by_cases hxy : a = x ∧ b = y
      · rw [if_pos hxy, if_pos hxy]
      · rw [if_neg hxy, if_neg hxy, lookupEdge_cons, if_neg]
        intro hexy
        exact hxy ⟨hab.1.symm.trans hexy.1, hab.2.symm.trans hexy.2⟩
    · rw [if_neg hab, lookupEdge_cons]
      by_cases hexy : e.u = x ∧ e.v = y
      · rw [if_pos hexy, lookupEdge_cons, if_pos hexy, if_neg]
        intro hxy
        exact hab ⟨hexy.1.trans hxy.1.symm, hexy.2.trans hxy.2.symm⟩
      · rw [if_neg hexy, ih, lookupEdge_cons, if_neg hexy]

theorem lookup_addEdge (g : Graph) (a b x y : String) (d : EdgeData) :
    lookupEdge (addEdge g a b d) x y =
      if a = x ∧ b = y then some d else lookupEdge g x y := by
  rw [addEdge, lookupEdge_append, lookup_removeEdge]
  by_cases h : a = x ∧ b = y
  · rw [if_pos h, if_pos h, lookupEdge_cons, if_pos h]
  · rw [if_neg h, if_neg h]
    cases hx : lookupEdge g x y with
    | some d2 => rfl
    | none => rw [lookupEdge_cons, if_neg h, lookupEdge_nil]

theorem lookup_foldl_build (rows : List Row) :
    ∀ (g : Graph) (a b : String),
      lookupEdge (rows.foldl (fun g r => addEdge g r.source r.dest (rowData r)) g) a b =
        match lastMatch a b rows with
        | some r => some (rowData r)
        | none => lookupEdge g a b := by
  induction rows with
  | nil => intro g a b; rfl
  | cons r rest ih =>
    intro g a b
    rw [List.foldl_cons, ih, lastMatch]
    cases lastMatch a b rest with
    | some r2 => rfl
    | none =>
      rw [lookup_addEdge]
      by_cases h : r.source = a ∧ r.dest = b
      · rw [if_pos h, if_pos h]
      · rw [if_neg h, if_neg h]

theorem lookup_build_graph (rows : List Row) (a b : String) :
    lookupEdge (build_graph rows) a b = (lastMatch a b rows).map rowData := by
  rw [build_graph, lookup_foldl_build]
  cases lastMatch a b rows with
  | some r => rfl
  | none => rfl

theorem getLast_some_of_ne_nil {α : Type} :
    ∀ (l : List α), l ≠ [] → ∃ y, l.getLast? = some y
  | [], h => absurd rfl h
  | [a], _ => ⟨a, rfl⟩
  | a :: b :: r, _ => by
    rcases getLast_some_of_ne_nil (b :: r) (by simp) with ⟨y, hy⟩
    exact ⟨y, by rw [List.getLast?_cons_cons, hy]⟩

theorem getLast_cons_of_ne_nil {α : Type} (a : α) {l : List α} (h : l ≠ []) :
    (a :: l).getLast? = l.getLast? := by
  cases l with
  | nil => exact absurd rfl h
  | cons b r => rw [List.getLast?_cons_cons]

theorem lastMatch_eq_filter_getLast (a b : String) (rows : List Row) :
    lastMatch a b rows =
      (rows.filter (fun r => decide (r.source = a ∧ r.dest = b))).getLast? := by
  induction rows with
  | nil => rfl
  | cons r rest ih =>
    rw [lastMatch]
    cases hm : lastMatch a b rest with
    | some r2 =>
      have hg : (rest.filter fun x => decide (x.source = a ∧ x.dest = b)).getLast? = some r2 := by
        rw [← ih]
        exact hm
      have hne : (rest.filter fun x => decide (x.source = a ∧ x.dest = b)) ≠ [] := by
        intro h0
        rw [h0] at hg
        exact Option.noConfusion hg
      rw [List.filter_cons]
      by_cases h : r.source = a ∧ r.dest = b
      · rw [if_pos (decide_eq_true h), getLast_cons_of_ne_nil r hne, hg]
      · rw [if_neg (fun hc => h (of_decide_eq_true hc)), hg]
    | none =>
      have hg : (rest.filter fun x => decide (x.source = a ∧ x.dest = b)).getLast? = none := by
        rw [← ih]
        exact hm
      have hnil : (rest.filter fun x => decide (x.source = a ∧ x.dest = b)) = [] := by
        cases hF : (rest.filter fun x => decide (x.source = a ∧ x.dest = b)) with
        | nil => rfl
        | cons q qs =>
          rcases getLast_some_of_ne_nil (q :: qs) (by simp) with ⟨y, hy⟩
          rw [hF, hy] at hg
          exact Option.noConfusion hg
      rw [List.filter_cons, hnil]
      by_cases h : r.source = a ∧ r.dest = b
      · rw [if_pos (decide_eq_true h), if_pos h]
        rfl
      · rw [if_neg (fun hc => h (of_decide_eq_true hc)), if_neg h]
        rfl

theorem lookup_preprocess (g : Graph) (w : Weights) (a b : String) :
    lookupEdge (preprocess_combined_weights g w) a b =
      (lookupEdge g a b).map (setW w) := by
  induction g with
  | nil => rfl
  | cons e rest ih =>
    rw [preprocess_combined_weights, List.map_cons, lookupEdge_cons, lookupEdge_cons]
    split
    · rfl
    · exact ih

theorem wellWeighted_preprocess (g : Graph) (w : Weights) :
    WellWeighted w (preprocess_combined_weights g w) := by
  intro a b d hd
  rw [lookup_preprocess] at hd
  cases hg : lookupEdge g a b with
  | none =>
    rw [hg] at hd
    exact Option.noConfusion hd
  | some d0 =>
    rw [hg] at hd
    injection hd with hd2
    rw [← hd2]
    rfl

theorem pickFirstMin_spec (key : List String → Int) :
    ∀ (l : List (List String)) (p : List String),
      pickFirstMin key p l ∈ p :: l ∧
        ∀ q ∈ p :: l, key (pickFirstMin key p l) ≤ key q := by
  intro l
  induction l with
  | nil =>
    intro p
    rw [pickFirstMin]
    refine ⟨List.mem_cons_self p [], ?_⟩
    intro q hq
    rcases List.mem_cons.mp hq with h | h
    · subst h
      exact le_rfl
    · cases h
  | cons q qs ih =>
    intro p
    rw [pickFirstMin]
    split
    · rename_i hlt
      rcases ih q with ⟨hmem, hle⟩
      constructor
      · rcases List.mem_cons.mp hmem with h | h
        · rw [h]; exact List.mem_cons_of_mem _ (List.mem_cons_self q qs)
        · exact List.mem_cons_of_mem _ (List.mem_cons_of_mem _ h)
      · intro x hx
        rcases List.mem_cons.mp hx with h | h
        · rw [h]
          exact le_of_lt (lt_of_le_of_lt (hle q (List.mem_cons_self q qs)) hlt)
        · exact hle x h
    · rename_i hnlt
      rcases ih p with ⟨hmem, hle⟩
      constructor
      · rcases List.mem_cons.mp hmem with h | h
        · rw [h]; exact List.mem_cons_self p _
        · exact List.mem_cons_of_mem _ (List.mem_cons_of_mem _ h)
      · intro x hx
        rcases List.mem_cons.mp hx with h | h
        · rw [h]; exact hle p (List.mem_cons_self p qs)
        · rcases List.mem_cons.mp h with h2 | h2
          · rw [h2]
            exact le_trans (hle p (List.mem_cons_self p qs)) (not_lt.mp hnlt)
          · exact hle x (List.mem_cons_of_mem _ h2)

theorem pickLastMin_spec (key : List String → Int) :
    ∀ (l : List (List String)) (p : List String),
      pickLastMin key p l ∈ p :: l ∧
        ∀ q ∈ p :: l, key (pickLastMin key p l) ≤ key q := by
  intro l
  induction l with
  | nil =>
    intro p
    rw [pickLastMin]
    refine ⟨List.mem_cons_self p [], ?_⟩
    intro q hq
    rcases List.mem_cons.mp hq with h | h
    · subst h
      exact le_rfl
    · cases h
  | cons q qs ih =>
    intro p
    rw [pickLastMin]
    split
    · rename_i hle0
      rcases ih q with ⟨hmem, hle⟩
      constructor
      · rcases List.mem_cons.mp hmem with h | h
        · rw [h]; exact List.mem_cons_of_mem _ (List.mem_cons_self q qs)
        · exact List.mem_cons_of_mem _ (List.mem_cons_of_mem _ h)
      · intro x hx
        rcases List.mem_cons.mp hx with h | h
        · rw [h]
          exact le_trans (hle q (List.mem_cons_self q qs)) hle0
        · exact hle x h
    · rename_i hngt
      rcases ih p with ⟨hmem, hle⟩
      constructor
      · rcases List.mem_cons.mp hmem with h | h
        · rw [h]; exact List.mem_cons_self p _
        · exact List.mem_cons_of_mem _ (List.mem_cons_of_mem _ h)
      · intro x hx
        rcases List.mem_cons.mp hx with h | h
        · rw [h]; exact hle p (List.mem_cons_self p qs)
        · rcases List.mem_cons.mp h with h2 | h2
          · rw [h2]
            exact le_trans (hle p (List.mem_cons_self p qs)) (le_of_lt (not_le.mp hngt))
          · exact hle x (List.mem_cons_of_mem _ h2)

theorem successors_sound (g : Graph) (u v : String) (h : v ∈ successors g u) :
    ∃ d, lookupEdge g u v = some d := by
  induction g with
  | nil => cases h
  | cons e rest ih =>
    rw [successors] at h
    rw [lookupEdge_cons]
    by_cases hu : e.u = u
    · rw [if_pos hu] at h
      rcases List.mem_cons.mp h with h1 | h2
      · exact ⟨e.data, if_pos ⟨hu, h1.symm⟩⟩
      · rcases ih h2 with ⟨d, hd⟩
        by_cases hv : e.v = v
        · exact ⟨e.data, if_pos ⟨hu, hv⟩⟩
        · exact ⟨d, by rw [if_neg (fun hc => hv hc.2)]; exact hd⟩
    · rw [if_neg hu] at h
      rcases ih h with ⟨d, hd⟩
      exact ⟨d, by rw [if_neg (fun hc => hu hc.1)]; exact hd⟩

theorem spAux_sound (g : Graph) (t : String) :
    ∀ (fuel : Nat) (u : String) (visited : List String) (p : List String),
      u ∈ visited → p ∈ spAux g t fuel u visited →
        p.head? = some u ∧ p.getLast? = some t ∧ chainOk g p ∧ p.Nodup ∧
          ∀ x ∈ p.tail, x ∉ visited := by
  intro fuel
  induction fuel with
  | zero =>
    intro u visited p hu hp
    rw [spAux] at hp
    by_cases ht : u = t
    · rw [if_pos ht] at hp
      rcases List.mem_singleton.mp hp with rfl
      refine ⟨rfl, by rw [ht]; simp, List.chain'_singleton u, List.nodup_singleton u, ?_⟩
      intro x hx
      cases hx
    · rw [if_neg ht] at hp
      cases hp
  | succ n ih =>
    intro u visited p hu hp
    rw [spAux] at hp
    by_cases ht : u = t
    · rw [if_pos ht] at hp
      rcases List.mem_singleton.mp hp with rfl
      refine ⟨rfl, by rw [ht]; simp, List.chain'_singleton u, List.nodup_singleton u, ?_⟩
      intro x hx
      cases hx
    · rw [if_neg ht] at hp
      rcases List.mem_flatMap.mp hp with ⟨v, hv, hpv⟩
      rcases List.mem_filter.mp hv with ⟨hvs, hvd⟩
      have hvnv : v ∉ visited := of_decide_eq_true hvd
      rcases List.mem_map.mp hpv with ⟨q, hq, rfl⟩
      rcases ih v (v :: visited) q (List.mem_cons_self v visited) hq with
        ⟨hqh, hqL, hqc, hqn, hqt⟩
      cases q with
      | nil => exact absurd hqh (by simp)
      | cons v0 q2 =>
        have hv0 : v0 = v := by
          injection hqh
        subst hv0
        refine ⟨rfl, ?_, ?_, ?_, ?_⟩
        · rw [List.getLast?_cons_cons]
          exact hqL
        · exact List.chain'_cons.mpr ⟨successors_sound g u v0 hvs, hqc⟩
        · refine List.nodup_cons.mpr ⟨?_, hqn⟩
          intro humem
          rcases List.mem_cons.mp humem with h1 | h2
          · rw [h1] at hu
            exact hvnv hu
          · have := hqt u h2
            exact this (List.mem_cons_of_mem v0 hu)
        · intro x hx
          rcases List.mem_cons.mp hx with h1 | h2
          · rw [h1]
            exact hvnv
          · intro hxv
            exact hqt x h2 (List.mem_cons_of_mem v0 hxv)

theorem allSimplePaths_sound (g : Graph) (s t : String) (p : List String)
    (hp : p ∈ allSimplePaths g s t) :
    p.head? = some s ∧ p.getLast? = some t ∧ chainOk g p ∧ p.Nodup := by
  rcases spAux_sound g t (nodesList g).length s [s] p (List.mem_singleton_self s) hp with
    ⟨h1, h2, h3, h4, _⟩
  exact ⟨h1, h2, h3, h4⟩

theorem allSimplePaths_self (g : Graph) (s : String) :
    allSimplePaths g s s = [[s]] := by
  rw [allSimplePaths]
  cases (nodesList g).length with
  | zero => rw [spAux, if_pos rfl]
  | succ n => rw [spAux, if_pos rfl]

theorem sumW (gp : Graph) (w : Weights) (hW : WellWeighted w gp) :
    ∀ (r : List String) (a : String), chainOk gp (a :: r) →
      ∃ c t z, sumEdges gp (a :: r) = some (c, t, z) ∧
        pathWeight gp (a :: r) =
          w.cost_w * c + w.time_w * t + w.co2_w * z +
            (((a :: r).length : Int) - 1) * w.layover_w := by
  intro r
  induction r with
  | nil =>
    intro a _
    refine ⟨0, 0, 0, rfl, ?_⟩
    simp [pathWeight]
  | cons b r2 ih =>
    intro a hch
    rcases List.chain'_cons.mp hch with ⟨⟨d, hd⟩, hch2⟩
    rcases ih b hch2 with ⟨c, t, z, hsum, hpw⟩
    refine ⟨d.cost + c, d.time + t, d.co2 + z, ?_, ?_⟩
    · rw [sumEdges, hd, hsum]
    · have hcomb : combinedOf gp a b =
          w.cost_w * d.cost + w.time_w * d.time + w.co2_w * d.co2 + w.layover_w * 1 := by
        rw [combinedOf, hd]
        show d.combined_score.getD 1 = _
        rw [hW a b d hd]
        rfl
      rw [pathWeight, hcomb, hpw]
      simp only [List.length_cons]
      push_cast
      ring

theorem score_combined (gp : Graph) (w : Weights) (hW : WellWeighted w gp)
    (p : List String) (hch : chainOk gp p) (hne : p ≠ []) :
    ∃ sc, score_path gp w p = some sc ∧
      sc.combined = pathWeight gp p - w.layover_w := by
  cases p with
  | nil => exact absurd rfl hne
  | cons a r =>
    rcases sumW gp w hW r a hch with ⟨c, t, z, hsum, hpw⟩
    have hsp : score_path gp w (a :: r) =
        some { combined := (c * w.cost_w + t * w.time_w + z * w.co2_w + (((a :: r).length : Int) - 2) * w.layover_w),
               total_cost := c, total_time := t, total_co2 := z,
               layovers := (((a :: r).length : Int) - 2) } := by
      rw [score_path, hsum]
    refine ⟨_, hsp, ?_⟩
    show (c * w.cost_w + t * w.time_w + z * w.co2_w + (((a :: r).length : Int) - 2) * w.layover_w) = _
    rw [hpw]
    ring

theorem perm_insertByW (g : Graph) (p : List String) (l : List (List String)) :
    List.Perm (insertByW g p l) (p :: l) := by
  induction l with
  | nil => exact List.Perm.refl [p]
  | cons q qs ih =>
    rw [insertByW]
    split
    · exact List.Perm.refl _
    · exact (ih.cons q).trans (List.Perm.swap p q qs)

theorem perm_sortByW (g : Graph) (l : List (List String)) :
    List.Perm (sortByW g l) l := by
  induction l with
  | nil => exact List.Perm.refl []
  | cons p ps ih =>
    rw [sortByW]
    exact (perm_insertByW g p (sortByW g ps)).trans (ih.cons p)

theorem pairwise_insertByW (g : Graph) (p : List String) (l : List (List String))
    (hl : l.Pairwise (fun x y => pathWeight g x ≤ pathWeight g y)) :
    (insertByW g p l).Pairwise (fun x y => pathWeight g x ≤ pathWeight g y) := by
  induction l with
  | nil => exact List.pairwise_singleton _ p
  | cons q qs ih =>
    rcases List.pairwise_cons.mp hl with ⟨hq, hqs⟩
    rw [insertByW]
    split
    · rename_i hle
      refine List.pairwise_cons.mpr ⟨?_, hl⟩
      intro x hx
      rcases List.mem_cons.mp hx with h1 | h2
      · rw [h1]
        exact hle
      · exact le_trans hle (hq x h2)
    · rename_i hgt
      refine List.pairwise_cons.mpr ⟨?_, ih hqs⟩
      intro x hx
      have hx2 : x ∈ p :: qs := (perm_insertByW g p qs).mem_iff.mp hx
      rcases List.mem_cons.mp hx2 with h1 | h2
      · rw [h1]
        exact le_of_lt (not_le.mp hgt)
      · exact hq x h2

theorem pairwise_sortByW (g : Graph) (l : List (List String)) :
    (sortByW g l).Pairwise (fun x y => pathWeight g x ≤ pathWeight g y) := by
  induction l with
  | nil => exact List.Pairwise.nil
  | cons p ps ih => exact pairwise_insertByW g p (sortByW g ps) ih

theorem dijkstra_ok_spec (g : Graph) (s t : String) (p : List String)
    (h : dijkstra_path g s t = .ok p) :
    p ∈ allSimplePaths g s t ∧
      ∀ q ∈ allSimplePaths g s t, pathWeight g p ≤ pathWeight g q := by
  rw [dijkstra_path] at h
  split at h
  · rename_i hnodes
    cases hl : allSimplePaths g s t with
    | nil => rw [hl] at h; exact Except.noConfusion h
    | cons p0 ps =>
      rw [hl] at h
      injection h with h2
      rcases pickFirstMin_spec (pathWeight g) ps p0 with ⟨hmem, hle⟩
      rw [h2] at hmem hle
      exact ⟨hl ▸ hmem, fun q hq => hle q (hl ▸ hq)⟩
  · exact Except.noConfusion h

theorem bellman_ok_spec (g : Graph) (s t : String) (p : List String)
    (h : bellman_ford_path g s t = .ok p) :
    p ∈ allSimplePaths g s t ∧
      ∀ q ∈ allSimplePaths g s t, pathWeight g p ≤ pathWeight g q := by
  rw [bellman_ford_path] at h
  split at h
  · rename_i hnodes
    cases hl : allSimplePaths g s t with
    | nil => rw [hl] at h; exact Except.noConfusion h
    | cons p0 ps =>
      rw [hl] at h
      injection h with h2
      rcases pickLastMin_spec (pathWeight g) ps p0 with ⟨hmem, hle⟩
      rw [h2] at hmem hle
      exact ⟨hl ▸ hmem, fun q hq => hle q (hl ▸ hq)⟩
  · exact Except.noConfusion h

theorem get_dijkstra_ok (g : Graph) (w : Weights) (s t : String)
    (p : List String) (sc : PathScore)
    (h : get_dijkstra_path g w s t = .ok (p, sc)) :
    dijkstra_path g s t = .ok p ∧ score_path g w p = some sc := by
  rw [get_dijkstra_path] at h
  split at h
  · exact Except.noConfusion h
  · rename_i p2 h1
    split at h
    · rename_i sc2 h2
      injection h with h3
      injection h3 with h4 h5
      rw [← h4, ← h5]
      exact ⟨h1, h2⟩
    · exact Except.noConfusion h

theorem get_bellman_ok (g : Graph) (w : Weights) (s t : String)
    (p : List String) (sc : PathScore)
    (h : get_bellman_ford_path g w s t = .ok (p, sc)) :
    bellman_ford_path g s t = .ok p ∧ score_path g w p = some sc := by
  rw [get_bellman_ford_path] at h
  split at h
  · exact Except.noConfusion h
  · rename_i p2 h1
    split at h
    · rename_i sc2 h2
      injection h with h3
      injection h3 with h4 h5
      rw [← h4, ← h5]
      exact ⟨h1, h2⟩
    · exact Except.noConfusion h

/-- C1: for every edge in the graph and every weight vector, the
preprocessing step stores on that edge the combined weight
`cost_w*cost + time_w*time + co2_w*co2 + layover_w*1` computed from the
edge's raw attributes. -/
theorem preprocess_stores_combined_formula (g : Graph) (w : Weights)
    (a b : String) (d : EdgeData) (h : lookupEdge g a b = some d) :
    lookupEdge (preprocess_combined_weights g w) a b =
      some { d with combined_score := some (w.cost_w * d.cost + w.time_w * d.time + w.co2_w * d.co2 + w.layover_w * 1) } := by
  rw [lookup_preprocess, h]
  rfl

/-- Witness for C1 at the scenario edge A→B under all-ones weights. -/
theorem preprocess_stores_combined_formula_witness :
    lookupEdge (preprocess_combined_weights gScenario wOnes) "A" "B" =
      some { cost := 100, time := 60, co2 := 50, source_lat := 0,
             source_lon := 0, dest_lat := 0, dest_lon := 0,
             combined_score := some 211 } :=
  preprocess_stores_combined_formula gScenario wOnes "A" "B"
    ⟨100, 60, 50, 0, 0, 0, 0, none⟩ (by rfl)

/-- C2: whenever both searches succeed on the freshly weighted graph,
the Dijkstra-style and Bellman-Ford-style results carry equal combined
scores (for non-negative raw attributes and positive weights). -/
theorem dijkstra_bellman_equal_score (g : Graph) (w : Weights)
    (s t : String) (pd pb : List String) (sd sb : PathScore)
    (hnn : nonnegGraph g) (hpos : posWeights w)
    (hd : get_dijkstra_path (preprocess_combined_weights g w) w s t = .ok (pd, sd))
    (hb : get_bellman_ford_path (preprocess_combined_weights g w) w s t = .ok (pb, sb)) :
    sd.combined = sb.combined := by
  obtain ⟨hd1, hd2⟩ := get_dijkstra_ok _ _ _ _ _ _ hd
  obtain ⟨hb1, hb2⟩ := get_bellman_ok _ _ _ _ _ _ hb
  obtain ⟨hdm, hdle⟩ := dijkstra_ok_spec _ _ _ _ hd1
  obtain ⟨hbm, hble⟩ := bellman_ok_spec _ _ _ _ hb1
  have hw : pathWeight (preprocess_combined_weights g w) pd =
      pathWeight (preprocess_combined_weights g w) pb :=
    le_antisymm (hdle pb hbm) (hble pd hdm)
  obtain ⟨hh, -, hch, -⟩ := allSimplePaths_sound _ _ _ _ hdm
  obtain ⟨hh2, -, hch2, -⟩ := allSimplePaths_sound _ _ _ _ hbm
  have hne : pd ≠ [] := by
    intro h0
    rw [h0] at hh
    exact Option.noConfusion hh
  have hne2 : pb ≠ [] := by
    intro h0
    rw [h0] at hh2
    exact Option.noConfusion hh2
  obtain ⟨scd, hscd, hcd⟩ :=
    score_combined _ w (wellWeighted_preprocess g w) pd hch hne
  obtain ⟨scb, hscb, hcb⟩ :=
    score_combined _ w (wellWeighted_preprocess g w) pb hch2 hne2
  rw [hd2] at hscd
  rw [hb2] at hscb
  injection hscd with e1
  injection hscb with e2
  rw [e1, e2, hcd, hcb, hw]

/-- Witness for C2 on the scenario graph: both searches return the same
score for A→C under all-ones weights. -/
theorem dijkstra_bellman_equal_score_witness :
    (⟨311, 150, 90, 70, 1⟩ : PathScore).combined =
      (⟨311, 150, 90, 70, 1⟩ : PathScore).combined :=
  dijkstra_bellman_equal_score gScenario wOnes "A" "C"
    ["A", "B", "C"] ["A", "B", "C"] ⟨311, 150, 90, 70, 1⟩ ⟨311, 150, 90, 70, 1⟩
    (by decide) (by decide) (by rfl) (by rfl)

/-- C3: the enumerator's emitted sequence is non-decreasing in combined
weight (equivalently, in combined score, which stays at a constant
offset `-layover_w` from the path weight), contains no duplicate path
and no path visiting a node twice, and its first element attains the
minimum combined weight, equal to the Dijkstra-style result's. -/
theorem enumerator_sorted_nodup_simple (g : Graph) (w : Weights)
    (s t : String) (pd : List String) (sd : PathScore)
    (hd : get_dijkstra_path (preprocess_combined_weights g w) w s t = .ok (pd, sd)) :
    (shortest_simple_paths (preprocess_combined_weights g w) s t).Pairwise
      (fun p q => pathWeight (preprocess_combined_weights g w) p ≤
        pathWeight (preprocess_combined_weights g w) q) ∧
    (shortest_simple_paths (preprocess_combined_weights g w) s t).Nodup ∧
    (∀ p ∈ shortest_simple_paths (preprocess_combined_weights g w) s t, p.Nodup) ∧
    (∃ p0, (shortest_simple_paths (preprocess_combined_weights g w) s t).head? = some p0 ∧
      pathWeight (preprocess_combined_weights g w) p0 =
        pathWeight (preprocess_combined_weights g w) pd ∧
      ∀ q ∈ shortest_simple_paths (preprocess_combined_weights g w) s t,
        pathWeight (preprocess_combined_weights g w) p0 ≤
          pathWeight (preprocess_combined_weights g w) q) ∧
    (∀ p ∈ shortest_simple_paths (preprocess_combined_weights g w) s t,
      ∃ sc, score_path (preprocess_combined_weights g w) w p = some sc ∧
        sc.combined = pathWeight (preprocess_combined_weights g w) p - w.layover_w) := by
  obtain ⟨hd1, hd2⟩ := get_dijkstra_ok _ _ _ _ _ _ hd
  obtain ⟨hdm, hdle⟩ := dijkstra_ok_spec _ _ _ _ hd1
  have hperm : List.Perm
      (shortest_simple_paths (preprocess_combined_weights g w) s t)
      (allSimplePaths (preprocess_combined_weights g w) s t).dedup := by
    rw [shortest_simple_paths]
    exact perm_sortByW _ _
  have hmem : ∀ p, p ∈ shortest_simple_paths (preprocess_combined_weights g w) s t ↔
      p ∈ allSimplePaths (preprocess_combined_weights g w) s t := by
    intro p
    rw [hperm.mem_iff, List.mem_dedup]
  refine ⟨?_, ?_, ?_, ?_, ?_⟩
  · rw [shortest_simple_paths]
    exact pairwise_sortByW _ _
  · exact hperm.nodup_iff.mpr (List.nodup_dedup _)
  · intro p hp
    exact (allSimplePaths_sound _ _ _ p ((hmem p).mp hp)).2.2.2
  · cases hss : shortest_simple_paths (preprocess_combined_weights g w) s t with
    | nil =>
      have hpd : pd ∈ shortest_simple_paths (preprocess_combined_weights g w) s t :=
        (hmem pd).mpr hdm
      rw [hss] at hpd
      cases hpd
    | cons p0 rest =>
      have hp0mem : p0 ∈ shortest_simple_paths (preprocess_combined_weights g w) s t := by
        rw [hss]
        exact List.mem_cons_self p0 rest
      have hmin : ∀ q ∈ shortest_simple_paths (preprocess_combined_weights g w) s t,
          pathWeight (preprocess_combined_weights g w) p0 ≤
            pathWeight (preprocess_combined_weights g w) q := by
        have hpw : (shortest_simple_paths (preprocess_combined_weights g w) s t).Pairwise
            (fun p q => pathWeight (preprocess_combined_weights g w) p ≤
              pathWeight (preprocess_combined_weights g w) q) := by
          rw [shortest_simple_paths]
          exact pairwise_sortByW _ _
        rw [hss] at hpw
        rcases List.pairwise_cons.mp hpw with ⟨hhead, -⟩
        intro q hq
        rw [hss] at hq
        rcases List.mem_cons.mp hq with h1 | h2
        · subst h1
          exact le_rfl
        · exact hhead q h2
      refine ⟨p0, rfl, ?_, ?_⟩
      · exact le_antisymm
          (hmin pd ((hmem pd).mpr hdm))
          (hdle p0 ((hmem p0).mp hp0mem))
      · intro q hq
        refine hmin q ?_
        rw [hss]
        exact hq
  · intro p hp
    obtain ⟨hh, -, hch, -⟩ := allSimplePaths_sound _ _ _ p ((hmem p).mp hp)
    have hne : p ≠ [] := by
      intro h0
      rw [h0] at hh
      exact Option.noConfusion hh
    exact score_combined _ w (wellWeighted_preprocess g w) p hch hne

/-- Witness for C3: the enumerated sequence for the scenario query has
no duplicates. -/
theorem enumerator_sorted_nodup_simple_witness :
    (shortest_simple_paths (preprocess_combined_weights gScenario wOnes) "A" "C").Nodup :=
  (enumerator_sorted_nodup_simple gScenario wOnes "A" "C"
    ["A", "B", "C"] ⟨311, 150, 90, 70, 1⟩ (by rfl)).2.1

/-- Counterexample to C4: a record with negative cost is accepted by the
loader and its edge is stored in the graph — no `InvalidRecord`
rejection happens anywhere in `_build_graph`. -/
theorem load_accepts_negative_cost :
    lookupEdge (build_graph [rowNeg]) "A" "B" =
      some { cost := -1, time := 5, co2 := 5, source_lat := 0,
             source_lon := 0, dest_lat := 0, dest_lon := 0,
             combined_score := none } ∧ (-1 : Int) < 0 :=
  ⟨rfl, by decide⟩

/-- C4 (amended): the loader performs no validation — every record,
negative attributes included, contributes an edge-attribute bundle for
its ordered (origin, destination) pair. -/
theorem load_builds_edge_per_pair (rows : List Row) (r : Row)
    (hr : r ∈ rows) :
    ∃ d, lookupEdge (build_graph rows) r.source r.dest = some d := by
  rw [lookup_build_graph, lastMatch_eq_filter_getLast]
  have hrf : r ∈ rows.filter (fun x => decide (x.source = r.source ∧ x.dest = r.dest)) :=
    List.mem_filter.mpr ⟨hr, decide_eq_true ⟨rfl, rfl⟩⟩
  rcases getLast_some_of_ne_nil _ (List.ne_nil_of_mem hrf) with ⟨y, hy⟩
  rw [hy]
  exact ⟨rowData y, rfl⟩

/-- Witness for C4 (amended) at the negative-cost record. -/
theorem load_builds_edge_per_pair_witness :
    ∃ d, lookupEdge (build_graph [rowNeg]) rowNeg.source rowNeg.dest = some d :=
  load_builds_edge_per_pair [rowNeg] rowNeg (List.mem_singleton_self rowNeg)

/-- Counterexample to C5: on the scenario graph the Dijkstra-style
search does return the path A-B-C, but its reported combined score is
311 (= 150 + 90 + 70 + 1·1), not 313. -/
theorem scenario_dijkstra_score_not_313 :
    get_dijkstra_path (preprocess_combined_weights gScenario wOnes) wOnes "A" "C" =
      .ok (["A", "B", "C"], ⟨311, 150, 90, 70, 1⟩) ∧ (311 : Int) ≠ 313 :=
  ⟨rfl, by decide⟩

/-- C5 (amended): on the scenario graph with all-ones weights, the
Dijkstra-style search from A to C returns [A, B, C] with combined score
311, beating the direct path [A, C] whose score is 330. -/
theorem scenario_dijkstra_best_path :
    get_dijkstra_path (preprocess_combined_weights gScenario wOnes) wOnes "A" "C" =
      .ok (["A", "B", "C"], ⟨311, 150, 90, 70, 1⟩) ∧
    score_path (preprocess_combined_weights gScenario wOnes) wOnes ["A", "C"] =
      some ⟨330, 200, 50, 80, 0⟩ :=
  ⟨rfl, rfl⟩

/-- Counterexample to C6: querying a node against itself yields the
single-node path with zero totals but layover count -1 (`len(path)-2`),
not 0, and combined score `-layover_w`. -/
theorem self_query_layovers_negative :
    get_dijkstra_path gOne wOnes "A" "A" =
      .ok (["A"], ⟨-1, 0, 0, 0, -1⟩) ∧ (-1 : Int) ≠ 0 :=
  ⟨rfl, by decide⟩

/-- C6 (amended): for every graph, weight vector and node `s` of the
graph, the query from `s` to itself yields the single-node path `[s]`
whose score reports zero total cost, time and co2, layover count -1,
and combined score `-layover_w`. -/
theorem self_query_single_node (g : Graph) (w : Weights) (s : String)
    (h : hasNode g s) :
    ∃ sc, get_dijkstra_path g w s s = .ok ([s], sc) ∧
      sc.total_cost = 0 ∧ sc.total_time = 0 ∧ sc.total_co2 = 0 ∧
      sc.layovers = -1 ∧ sc.combined = -w.layover_w := by
  have hd : dijkstra_path g s s = .ok [s] := by
    rw [dijkstra_path, if_pos ⟨h, h⟩, allSimplePaths_self]
    rfl
  refine ⟨⟨(0 : Int) * w.cost_w + 0 * w.time_w + 0 * w.co2_w + (([s].length : Int) - 2) * w.layover_w,
      0, 0, 0, ([s].length : Int) - 2⟩, ?_, ?_, ?_, ?_, ?_, ?_⟩
  · rw [get_dijkstra_path, hd]
    exact rfl
  · rfl
  · rfl
  · rfl
  · show ([s].length : Int) - 2 = -1
    norm_num
  · show (0 : Int) * w.cost_w + 0 * w.time_w + 0 * w.co2_w +
        (([s].length : Int) - 2) * w.layover_w = -w.layover_w
    norm_num

/-- Witness for C6 (amended) at the one-edge graph. -/
theorem self_query_single_node_witness :
    ∃ sc, get_dijkstra_path gOne wOnes "A" "A" = .ok (["A"], sc) ∧
      sc.total_cost = 0 ∧ sc.total_time = 0 ∧ sc.total_co2 = 0 ∧
      sc.layovers = -1 ∧ sc.combined = -wOnes.layover_w :=
  self_query_single_node gOne wOnes "A" (by decide)

/-- C7: when source and destination are nodes of the graph but no
simple path connects them, both searches fail with `NoPathFound` and
the enumerator emits nothing. -/
theorem unreachable_all_fail (g : Graph) (w : Weights) (s t : String)
    (hs : hasNode g s) (ht : hasNode g t)
    (hnp : ∀ p : List String,
      ¬(p.head? = some s ∧ p.getLast? = some t ∧ chainOk g p ∧ p.Nodup)) :
    get_dijkstra_path g w s t = .error .noPathFound ∧
    get_bellman_ford_path g w s t = .error .noPathFound ∧
    shortest_simple_paths g s t = [] := by
  have hl : allSimplePaths g s t = [] := by
    cases hl0 : allSimplePaths g s t with
    | nil => rfl
    | cons p ps =>
      obtain ⟨h1, h2, h3, h4⟩ :=
        allSimplePaths_sound g s t p (hl0 ▸ List.mem_cons_self p ps)
      exact absurd ⟨h1, h2, h3, h4⟩ (hnp p)
  refine ⟨?_, ?_, ?_⟩
  · rw [get_dijkstra_path, dijkstra_path, if_pos ⟨hs, ht⟩, hl]
  · rw [get_bellman_ford_path, bellman_ford_path, if_pos ⟨hs, ht⟩, hl]
  · rw [shortest_simple_paths, hl]
    rfl

/-- Witness for C7: B cannot reach A over the single edge A→B. -/
theorem unreachable_all_fail_witness :
    get_dijkstra_path gOne wOnes "B" "A" = .error .noPathFound ∧
    get_bellman_ford_path gOne wOnes "B" "A" = .error .noPathFound ∧
    shortest_simple_paths gOne "B" "A" = [] :=
  unreachable_all_fail gOne wOnes "B" "A" (by decide) (by decide) (by
    intro p hp
    obtain ⟨h1, h2, h3, -⟩ := hp
    cases p with
    | nil => exact Option.noConfusion h1
    | cons x q =>
      have hx : x = "B" := by injection h1
      subst hx
      cases q with
      | nil =>
        have h2b : some ("B" : String) = some "A" := h2
        injection h2b with h2c
        exact absurd h2c (by decide)
      | cons y r =>
        obtain ⟨⟨d, hd⟩, -⟩ := List.chain'_cons.mp h3
        exact Option.noConfusion (show (none : Option EdgeData) = some d from hd))

/-- C8: duplicate ordered pairs in the input are resolved
last-write-wins — the stored attribute bundle for any ordered pair is
exactly that of the last matching record of the table. -/
theorem load_last_write_wins (rows : List Row) (a b : String) :
    lookupEdge (build_graph rows) a b =
      ((rows.filter (fun r => decide (r.source = a ∧ r.dest = b))).getLast?).map rowData := by
  rw [lookup_build_graph, lastMatch_eq_filter_getLast]

/-- C9: the score reported alongside a successful search result is
exactly the Path Scorer's output on the returned path, for both search
algorithms. -/
theorem reported_score_roundtrip (g : Graph) (w : Weights) (s t : String) :
    (∀ p sc, get_dijkstra_path g w s t = .ok (p, sc) →
      score_path g w p = some sc) ∧
    (∀ p sc, get_bellman_ford_path g w s t = .ok (p, sc) →
      score_path g w p = some sc) :=
  ⟨fun p sc h => (get_dijkstra_ok g w s t p sc h).2,
   fun p sc h => (get_bellman_ok g w s t p sc h).2⟩

/-- Witness for C9 at the scenario query. -/
theorem reported_score_roundtrip_witness :
    score_path (preprocess_combined_weights gScenario wOnes) wOnes ["A", "B", "C"] =
      some ⟨311, 150, 90, 70, 1⟩ :=
  (reported_score_roundtrip (preprocess_combined_weights gScenario wOnes)
    wOnes "A" "C").1 ["A", "B", "C"] ⟨311, 150, 90, 70, 1⟩ (by rfl)

/-- C10: preprocessing changes only the combined-score attribute — the
edge list (as ordered pairs), the node list, and every edge's raw cost,
time, co2 and coordinate attributes are unchanged. -/
theorem preprocess_frame (g : Graph) (w : Weights) :
    (preprocess_combined_weights g w).map (fun e => (e.u, e.v)) =
      g.map (fun e => (e.u, e.v)) ∧
    nodesList (preprocess_combined_weights g w) = nodesList g ∧
    ∀ a b d, lookupEdge g a b = some d →
      ∃ d2, lookupEdge (preprocess_combined_weights g w) a b = some d2 ∧
        d2.cost = d.cost ∧ d2.time = d.time ∧ d2.co2 = d.co2 ∧
        d2.source_lat = d.source_lat ∧ d2.source_lon = d.source_lon ∧
        d2.dest_lat = d.dest_lat ∧ d2.dest_lon = d.dest_lon := by
  refine ⟨?_, ?_, ?_⟩
  · rw [preprocess_combined_weights, List.map_map]
    rfl
  · rw [nodesList, nodesList, preprocess_combined_weights, List.map_map, List.map_map]
    rfl
  · intro a b d hd
    refine ⟨setW w d, ?_, rfl, rfl, rfl, rfl, rfl, rfl, rfl⟩
    rw [lookup_preprocess, hd]
    rfl

/-- Witness for C10 at the one-edge graph: the raw attributes of A→B
survive preprocessing. -/
theorem preprocess_frame_witness :
    ∃ d2, lookupEdge (preprocess_combined_weights gOne wOnes) "A" "B" = some d2 ∧
      d2.cost = (7 : Int) ∧ d2.time = (5 : Int) ∧ d2.co2 = (3 : Int) ∧
      d2.source_lat = (0 : Int) ∧ d2.source_lon = (0 : Int) ∧
      d2.dest_lat = (0 : Int) ∧ d2.dest_lon = (0 : Int) :=
  (preprocess_frame gOne wOnes).2.2 "A" "B" ⟨7, 5, 3, 0, 0, 0, 0, none⟩ (by rfl)

end FlightRoute
